import Mathlib

/-!
Verification of the asset-processing-job subsystem of a Next.js SaaS
application.  The embedding models:

* the Drizzle ORM tables `projects`, `assets`, `asset_processing_jobs`
  of `nextjs/server/db/schema.ts` (rows as structures, tables as lists,
  uniqueness and foreign-key constraints as operation preconditions,
  `onDelete: cascade` as explicit cascade functions);
* the route handler `GET /api/projects/[projectId]/asset-processing-jobs`
  (`route.ts`): auth check, select by projectId, 401/500/200 responses;
* the route handler `DELETE /api/projects/[projectId]`: auth check,
  delete where userId and id both match, 404 when nothing matched;
* the job lifecycle driven by the external worker service, which is not
  part of the provided source; its transitions are modelled from the
  specification's state-machine contract.

Timestamps are modelled as `Nat`, SQL integers as `Int`, uuid and text
columns as `String`.
-/

/-- Row of the `projects` table (`projectsTable` in schema.ts):
id, title, createdAt, updatedAt, userId. -/
structure Project where
  id : String
  title : String
  createdAt : Nat
  updatedAt : Nat
  userId : String
deriving DecidableEq

/-- Row of the `assets` table (`assetTable` in schema.ts). -/
structure Asset where
  id : String
  projectId : String
  title : String
  fileName : String
  fileUrl : String
  fileType : String
  mimeType : String
  size : Int
  content : String
  tokenCount : Int
  createdAt : Nat
  updatedAt : Nat
deriving DecidableEq

/-- Row of the `asset_processing_jobs` table
(`assetProcessingJobTable` in schema.ts): `status` is a plain text
column, `errorMessage` is nullable, `attempts` is an integer defaulting
to 0, `lastHeartBeat`, `createdAt`, `updatedAt` are timestamps. -/
structure AssetProcessingJob where
  id : String
  assetId : String
  projectId : String
  status : String
  errorMessage : Option String
  attempts : Int
  lastHeartBeat : Nat
  createdAt : Nat
  updatedAt : Nat
deriving DecidableEq

/-- Body of a JSON API response: either a list of job rows, a single
project row, or an error object with its message string. -/
inductive ApiBody where
  | jobList : List AssetProcessingJob → ApiBody
  | project : Project → ApiBody
  | err : String → ApiBody
deriving DecidableEq

/-- An HTTP JSON response: status code plus body. -/
structure ApiResponse where
  status : Nat
  body : ApiBody
deriving DecidableEq

/-- The select of the jobs route: all rows of `asset_processing_jobs`
whose `projectId` equals the given project id. -/
def selectJobsByProject (tbl : List AssetProcessingJob) (projectId : String) :
    List AssetProcessingJob :=
  tbl.filter (fun j => j.projectId == projectId)

/-- Handler of `GET /api/projects/[projectId]/asset-processing-jobs`
(route.ts).  `userId` is the result of `getAuth` (none when no user is
authenticated); `selectFails` models the select throwing.  Returns the
response together with the jobs table afterwards (the handler never
writes, so the table is returned unchanged on every path).  The
`console.log`/`console.error` calls are server-side logging outside the
response and are not modelled. -/
def assetProcessingJobsGET (userId : Option String) (projectId : String)
    (tbl : List AssetProcessingJob) (selectFails : Bool) :
    ApiResponse × List AssetProcessingJob :=
  match userId with
  | none => (⟨401, ApiBody.err "Unauthorized"⟩, tbl)
  | some _ =>
    if selectFails then
      (⟨500, ApiBody.err "Failed to fetch asset processing jobs"⟩, tbl)
    else
      (⟨200, ApiBody.jobList (selectJobsByProject tbl projectId)⟩, tbl)

/-- C1: an authenticated GET on the jobs route whose select succeeds
returns status 200 and the body is exactly the rows whose `projectId`
equals the path parameter: membership is characterised, and the number
of returned records equals the number of matching rows in the table. -/
theorem getJobs_authenticated_exact (uid projectId : String)
    (tbl : List AssetProcessingJob) :
    ∃ l, (assetProcessingJobsGET (some uid) projectId tbl false).1 =
        ⟨200, ApiBody.jobList l⟩ ∧
      (∀ j, j ∈ l ↔ (j ∈ tbl ∧ j.projectId = projectId)) ∧
      l.length = tbl.countP (fun j => j.projectId == projectId) := by
  refine ⟨selectJobsByProject tbl projectId, rfl, ?_, ?_⟩
  · intro j
    simp [selectJobsByProject, List.mem_filter]
  · simp [selectJobsByProject, List.countP_eq_length_filter]

/-- Concrete jobs table used by spot-check theorems: two rows belong to
project `projA`, one to project `projB`. -/
def sampleJobsTbl : List AssetProcessingJob :=
  [⟨"j1", "a1", "projA", "queued", none, 0, 0, 0, 0⟩,
   ⟨"j2", "a2", "projB", "queued", none, 0, 0, 0, 0⟩,
   ⟨"j3", "a3", "projA", "completed", none, 1, 5, 0, 5⟩]

/-- C1 witness: on a concrete table with two rows of the queried project
and one row of another project, the route returns exactly the two
matching rows. -/
theorem getJobs_authenticated_exact_spot :
    ∃ l, (assetProcessingJobsGET (some "user1") "projA"
        sampleJobsTbl false).1 = ⟨200, ApiBody.jobList l⟩ ∧
      (∀ j, j ∈ l ↔ (j ∈ sampleJobsTbl ∧ j.projectId = "projA")) ∧
      l.length = sampleJobsTbl.countP (fun j => j.projectId == "projA") :=
  getJobs_authenticated_exact "user1" "projA" sampleJobsTbl

/-- C2: an unauthenticated GET on the jobs route returns status 401
with the error body, and the response does not depend on the jobs table
or on whether the select would fail, so no job data can be returned. -/
theorem getJobs_unauthenticated_401 (projectId : String)
    (tbl : List AssetProcessingJob) (selectFails : Bool) :
    (assetProcessingJobsGET none projectId tbl selectFails).1 =
      ⟨401, ApiBody.err "Unauthorized"⟩ ∧
    (∀ tbl2 selectFails2,
      (assetProcessingJobsGET none projectId tbl selectFails).1 =
      (assetProcessingJobsGET none projectId tbl2 selectFails2).1) ∧
    (assetProcessingJobsGET none projectId tbl selectFails).2 = tbl := by
  exact ⟨rfl, fun tbl2 selectFails2 => rfl, rfl⟩

/-- C3: an authenticated GET whose store read fails returns status 500
with the fixed generic error body, the response does not depend on the
table contents (no detail of the store leaks into the response), and
the table is left unchanged. -/
theorem getJobs_storeFailure_500 (uid projectId : String)
    (tbl : List AssetProcessingJob) :
    (assetProcessingJobsGET (some uid) projectId tbl true).1 =
      ⟨500, ApiBody.err "Failed to fetch asset processing jobs"⟩ ∧
    (∀ tbl2, (assetProcessingJobsGET (some uid) projectId tbl true).1 =
      (assetProcessingJobsGET (some uid) projectId tbl2 true).1) ∧
    (assetProcessingJobsGET (some uid) projectId tbl true).2 = tbl := by
  exact ⟨rfl, fun tbl2 => rfl, rfl⟩

/-- C4: the response of the jobs GET route is independent of which user
is authenticated: the handler checks only that some user is present and
never compares the caller to the project's owner. -/
theorem getJobs_ownerIndependent (u1 u2 projectId : String)
    (tbl : List AssetProcessingJob) (selectFails : Bool) :
    assetProcessingJobsGET (some u1) projectId tbl selectFails =
    assetProcessingJobsGET (some u2) projectId tbl selectFails := rfl

/-- State of the three tables relevant to the job subsystem, plus a
ghost list of every job id ever generated.  `usedJobIds` models the
freshness of `uuid defaultRandom` primary keys: ids are never reused,
even after a row is deleted; it grows monotonically and is not a table. -/
structure DBState where
  projects : List Project
  assets : List Asset
  jobs : List AssetProcessingJob
  usedJobIds : List String
deriving DecidableEq

/-- The empty database. -/
def emptyDB : DBState := ⟨[], [], [], []⟩

/-- A project id `x` is among the ids of the projects satisfying `pred`
(the projects a cascade delete is about to remove). -/
def projectMatches (s : DBState) (pred : Project → Bool) (x : String) : Bool :=
  s.projects.any (fun p => pred p && (p.id == x))

/-- An asset id `x` belongs to an asset that the project-cascade is
about to delete. -/
def assetDeletedByProjects (s : DBState) (pred : Project → Bool) (x : String) : Bool :=
  s.assets.any (fun a => projectMatches s pred a.projectId && (a.id == x))

/-- Cascade semantics of deleting the projects satisfying `pred`
(schema.ts: `assets.project_id` and both job foreign keys carry
`onDelete: cascade`): the matching projects go, every asset whose
`projectId` is a deleted project id goes, and every job whose
`projectId` is a deleted project id or whose `assetId` is a deleted
asset id goes. -/
def cascadeDeleteProjects (s : DBState) (pred : Project → Bool) : DBState :=
  { s with
    projects := s.projects.filter (fun p => !(pred p))
    assets := s.assets.filter (fun a => !(projectMatches s pred a.projectId))
    jobs := s.jobs.filter (fun j =>
      !(projectMatches s pred j.projectId) &&
      !(assetDeletedByProjects s pred j.assetId)) }

/-- An asset id `x` is among the ids of the assets satisfying `pred`. -/
def assetMatches (s : DBState) (pred : Asset → Bool) (x : String) : Bool :=
  s.assets.any (fun a => pred a && (a.id == x))

/-- Cascade semantics of deleting the assets satisfying `pred`
(schema.ts: `asset_processing_jobs.asset_id` has `onDelete: cascade`):
the matching assets go, and every job whose `assetId` is a deleted
asset id goes. -/
def cascadeDeleteAssets (s : DBState) (pred : Asset → Bool) : DBState :=
  { s with
    assets := s.assets.filter (fun a => !(pred a))
    jobs := s.jobs.filter (fun j => !(assetMatches s pred j.assetId)) }

/-- Handler of `DELETE /api/projects/[projectId]`: after the auth check,
it deletes the project rows where both `userId` equals the caller's id
and `id` equals the path parameter (the cascade of the schema then
removes dependent assets and jobs), and returns the first deleted row,
or 404 with an error body when nothing matched. -/
def projectDELETE (userId : Option String) (projectId : String)
    (s : DBState) : ApiResponse × DBState :=
  match userId with
  | none => (⟨401, ApiBody.err "Unauthorized"⟩, s)
  | some uid =>
    let deleted := s.projects.filter (fun p => p.userId == uid && p.id == projectId)
    let s2 := cascadeDeleteProjects s (fun p => p.userId == uid && p.id == projectId)
    match deleted with
    | [] => (⟨404, ApiBody.err "Project not found"⟩, s2)
    | p :: _ => (⟨200, ApiBody.project p⟩, s2)

/-- In a list whose images under `f` are pairwise distinct, at most one
element maps to any given value. -/
theorem filter_fiber_le_one {α : Type} (f : α → String) (c : String) :
    ∀ l : List α, (l.map f).Nodup →
      (l.filter (fun x => f x == c)).length ≤ 1 := by
  intro l
  induction l with
  | nil => intro _; simp
  | cons a t ih =>
    intro h
    rw [List.map_cons, List.nodup_cons] at h
    by_cases hc : f a = c
    · have ht : t.filter (fun x => f x == c) = [] := by
        rw [List.filter_eq_nil_iff]
        intro x hx hfx
        exact h.1 (hc ▸ (by simpa using hfx) ▸ List.mem_map_of_mem f hx)
      simp [List.filter_cons, hc, ht]
    · simp only [List.filter_cons, beq_iff_eq, hc, if_false]
      exact ih h.2
/-- When some project with id `pid` exists, an id matches the
project-delete predicate for `pid` exactly when it equals `pid`. -/
theorem projectMatches_id_iff (s : DBState) (pid : String)
    (hp : ∃ p ∈ s.projects, p.id = pid) (x : String) :
    projectMatches s (fun q => q.id == pid) x = true ↔ x = pid := by
  simp only [projectMatches, List.any_eq_true, Bool.and_eq_true, beq_iff_eq]
  constructor
  · rintro ⟨p, hpmem, h1, h2⟩
    exact h2.symm.trans h1
  · rintro rfl
    obtain ⟨p, hpmem, hid⟩ := hp
    exact ⟨p, hpmem, hid, hid⟩

/-- When some project with id `pid` exists, an asset id is removed by
the project cascade for `pid` exactly when a stored asset of project
`pid` carries that id. -/
theorem assetDeletedByProjects_id_iff (s : DBState) (pid : String)
    (hp : ∃ p ∈ s.projects, p.id = pid) (x : String) :
    assetDeletedByProjects s (fun q => q.id == pid) x = true ↔
      ∃ a ∈ s.assets, a.projectId = pid ∧ a.id = x := by
  simp only [assetDeletedByProjects, List.any_eq_true, Bool.and_eq_true,
    beq_iff_eq, projectMatches_id_iff s pid hp]

/-- When some asset with id `aid` exists, an id matches the
asset-delete predicate for `aid` exactly when it equals `aid`. -/
theorem assetMatches_id_iff (s : DBState) (aid : String)
    (ha : ∃ a ∈ s.assets, a.id = aid) (x : String) :
    assetMatches s (fun b => b.id == aid) x = true ↔ x = aid := by
  simp only [assetMatches, List.any_eq_true, Bool.and_eq_true, beq_iff_eq]
  constructor
  · rintro ⟨a, hamem, h1, h2⟩
    exact h2.symm.trans h1
  · rintro rfl
    obtain ⟨a, hamem, hid⟩ := ha
    exact ⟨a, hamem, hid, hid⟩

/-- C6: deleting a project row (one that exists) removes, by cascade,
exactly the assets of that project and exactly the jobs that reference
the project directly or through one of its assets; deleting an asset
row (one that exists) removes exactly the jobs referencing it — of
which, by the uniqueness of `assetId` over jobs, there is at most one —
and leaves the projects table untouched. -/
theorem cascade_delete_exact (s : DBState) (pid aid : String)
    (hp : ∃ p ∈ s.projects, p.id = pid)
    (ha : ∃ a ∈ s.assets, a.id = aid)
    (hnd : (s.jobs.map (fun j => j.assetId)).Nodup) :
    (∀ p, p ∈ (cascadeDeleteProjects s (fun q => q.id == pid)).projects ↔
      (p ∈ s.projects ∧ p.id ≠ pid)) ∧
    (∀ a, a ∈ (cascadeDeleteProjects s (fun q => q.id == pid)).assets ↔
      (a ∈ s.assets ∧ a.projectId ≠ pid)) ∧
    (∀ j, j ∈ (cascadeDeleteProjects s (fun q => q.id == pid)).jobs ↔
      (j ∈ s.jobs ∧ j.projectId ≠ pid ∧
        ∀ a ∈ s.assets, a.projectId = pid → a.id ≠ j.assetId)) ∧
    ((cascadeDeleteAssets s (fun b => b.id == aid)).projects = s.projects) ∧
    (∀ a, a ∈ (cascadeDeleteAssets s (fun b => b.id == aid)).assets ↔
      (a ∈ s.assets ∧ a.id ≠ aid)) ∧
    (∀ j, j ∈ (cascadeDeleteAssets s (fun b => b.id == aid)).jobs ↔
      (j ∈ s.jobs ∧ j.assetId ≠ aid)) ∧
    (s.jobs.filter (fun j => j.assetId == aid)).length ≤ 1 := by
  refine ⟨?_, ?_, ?_, rfl, ?_, ?_, filter_fiber_le_one _ _ _ hnd⟩
  · intro p
    simp [cascadeDeleteProjects, List.mem_filter]
  · intro a
    simp [cascadeDeleteProjects, List.mem_filter, Bool.not_eq_true',
      Bool.eq_false_iff, ne_eq, projectMatches_id_iff s pid hp]
  · intro j
    simp only [cascadeDeleteProjects, List.mem_filter, Bool.and_eq_true,
      Bool.not_eq_true', Bool.eq_false_iff, ne_eq,
      projectMatches_id_iff s pid hp,
      assetDeletedByProjects_id_iff s pid hp]
    constructor
    · rintro ⟨hmem, hnp, hna⟩
      refine ⟨hmem, hnp, ?_⟩
      intro a hamem hapid haid
      exact hna ⟨a, hamem, hapid, haid⟩
    · rintro ⟨hmem, hnp, hna⟩
      refine ⟨hmem, hnp, ?_⟩
      rintro ⟨a, hamem, hapid, haid⟩
      exact hna a hamem hapid haid
  · intro a
    simp [cascadeDeleteAssets, List.mem_filter]
  · intro j
    simp [cascadeDeleteAssets, List.mem_filter, Bool.not_eq_true',
      Bool.eq_false_iff, ne_eq, assetMatches_id_iff s aid ha]

/-- Concrete database with two users, each owning one project with one
asset and one job, used by spot-check theorems. -/
def sampleDB : DBState :=
  { projects := [⟨"proj1", "t1", 0, 0, "user1"⟩, ⟨"proj2", "t2", 0, 0, "user2"⟩]
    assets := [⟨"a1", "proj1", "t", "f", "u", "ft", "mt", 1, "", 0, 0, 0⟩,
               ⟨"a2", "proj2", "t", "f", "u", "ft", "mt", 1, "", 0, 0, 0⟩]
    jobs := [⟨"j1", "a1", "proj1", "queued", none, 0, 0, 0, 0⟩,
             ⟨"j2", "a2", "proj2", "queued", none, 0, 0, 0, 0⟩]
    usedJobIds := ["j1", "j2"] }

/-- C6 witness: the cascade characterisation evaluated on the concrete
two-project database, deleting project `proj1` and asset `a1`. -/
theorem cascade_delete_exact_spot :
    (∀ p, p ∈ (cascadeDeleteProjects sampleDB (fun q => q.id == "proj1")).projects ↔
      (p ∈ sampleDB.projects ∧ p.id ≠ "proj1")) ∧
    (∀ a, a ∈ (cascadeDeleteProjects sampleDB (fun q => q.id == "proj1")).assets ↔
      (a ∈ sampleDB.assets ∧ a.projectId ≠ "proj1")) ∧
    (∀ j, j ∈ (cascadeDeleteProjects sampleDB (fun q => q.id == "proj1")).jobs ↔
      (j ∈ sampleDB.jobs ∧ j.projectId ≠ "proj1" ∧
        ∀ a ∈ sampleDB.assets, a.projectId = "proj1" → a.id ≠ j.assetId)) ∧
    ((cascadeDeleteAssets sampleDB (fun b => b.id == "a1")).projects =
      sampleDB.projects) ∧
    (∀ a, a ∈ (cascadeDeleteAssets sampleDB (fun b => b.id == "a1")).assets ↔
      (a ∈ sampleDB.assets ∧ a.id ≠ "a1")) ∧
    (∀ j, j ∈ (cascadeDeleteAssets sampleDB (fun b => b.id == "a1")).jobs ↔
      (j ∈ sampleDB.jobs ∧ j.assetId ≠ "a1")) ∧
    (sampleDB.jobs.filter (fun j => j.assetId == "a1")).length ≤ 1 :=
  cascade_delete_exact sampleDB "proj1" "a1" (by decide) (by decide) (by decide)

/-- A cascade project deletion whose predicate matches no stored
project leaves the database unchanged. -/
theorem cascadeDeleteProjects_no_match (s : DBState) (pred : Project → Bool)
    (h : ∀ p ∈ s.projects, pred p = false) :
    cascadeDeleteProjects s pred = s := by
  have hpm : ∀ x, projectMatches s pred x = false := by
    intro x
    simp only [projectMatches, List.any_eq_false]
    intro p hpmem
    simp [h p hpmem]
  have had : ∀ x, assetDeletedByProjects s pred x = false := by
    intro x
    simp only [assetDeletedByProjects, List.any_eq_false]
    intro a hamem
    simp [hpm a.projectId]
  have h1 : s.projects.filter (fun p => !(pred p)) = s.projects := by
    rw [List.filter_eq_self]
    intro p hpmem
    simp [h p hpmem]
  have h2 : s.assets.filter (fun a => !(projectMatches s pred a.projectId)) =
      s.assets := by
    rw [List.filter_eq_self]
    intro a hamem
    simp [hpm a.projectId]
  have h3 : s.jobs.filter (fun j =>
      !(projectMatches s pred j.projectId) &&
      !(assetDeletedByProjects s pred j.assetId)) = s.jobs := by
    rw [List.filter_eq_self]
    intro j hjmem
    simp [hpm j.projectId, had j.assetId]
  cases s with
  | mk pl al jl ul =>
    simp only [cascadeDeleteProjects, DBState.mk.injEq]
    exact ⟨h1, h2, h3, trivial⟩

/-- C10: project deletion is owner-scoped.  For an authenticated caller
the DELETE handler removes a project row exactly when its id equals the
path parameter and its userId equals the caller; when no such row
exists it answers 404 with the error body and the whole database state
(projects, and hence cascaded assets and jobs) is unchanged; rows of
other users are never removed. -/
theorem projectDelete_owner_scoped (uid pid : String) (s : DBState) :
    (∀ p, p ∈ (projectDELETE (some uid) pid s).2.projects ↔
      (p ∈ s.projects ∧ ¬(p.id = pid ∧ p.userId = uid))) ∧
    ((∃ p ∈ s.projects, p.id = pid ∧ p.userId = uid) →
      (projectDELETE (some uid) pid s).1.status = 200) ∧
    ((¬ ∃ p ∈ s.projects, p.id = pid ∧ p.userId = uid) →
      (projectDELETE (some uid) pid s).1 =
        ⟨404, ApiBody.err "Project not found"⟩ ∧
      (projectDELETE (some uid) pid s).2 = s) := by
  refine ⟨?_, ?_, ?_⟩
  · intro p
    cases hd : s.projects.filter (fun q => q.userId == uid && q.id == pid) with
    | nil =>
      simp only [projectDELETE, hd]
      simp [cascadeDeleteProjects, List.mem_filter, and_comm]
      tauto
    | cons q t =>
      simp only [projectDELETE, hd]
      simp [cascadeDeleteProjects, List.mem_filter, and_comm]
      tauto
  · rintro ⟨p, hpmem, hpid, hpuid⟩
    cases hd : s.projects.filter (fun q => q.userId == uid && q.id == pid) with
    | nil =>
      exfalso
      have := List.filter_eq_nil_iff.mp hd p hpmem
      simp [hpid, hpuid] at this
    | cons q t =>
      simp only [projectDELETE, hd]
  · intro hno
    have hd : s.projects.filter (fun q => q.userId == uid && q.id == pid) = [] := by
      rw [List.filter_eq_nil_iff]
      intro p hpmem hcond
      simp only [Bool.and_eq_true, beq_iff_eq] at hcond
      exact hno ⟨p, hpmem, hcond.2, hcond.1⟩
    have hfalse : ∀ p ∈ s.projects,
        (fun q => q.userId == uid && q.id == pid) p = false := by
      intro p hpmem
      by_contra hne
      have : (fun q => q.userId == uid && q.id == pid) p = true := by
        cases hcase : (fun q => q.userId == uid && q.id == pid) p with
        | true => rfl
        | false => exact absurd hcase hne
      simp only [Bool.and_eq_true, beq_iff_eq] at this
      exact hno ⟨p, hpmem, this.2, this.1⟩
    constructor
    · simp only [projectDELETE, hd]
    · simp only [projectDELETE, hd]
      exact cascadeDeleteProjects_no_match s _ hfalse

/-- C10 witness: on the concrete two-user database, user `user1`
deleting project `proj2` (owned by `user2`) gets 404 and changes
nothing, and rows are removed exactly for matching owner and id. -/
theorem projectDelete_owner_scoped_spot :
    (∀ p, p ∈ (projectDELETE (some "user1") "proj2" sampleDB).2.projects ↔
      (p ∈ sampleDB.projects ∧ ¬(p.id = "proj2" ∧ p.userId = "user1"))) ∧
    ((∃ p ∈ sampleDB.projects, p.id = "proj2" ∧ p.userId = "user1") →
      (projectDELETE (some "user1") "proj2" sampleDB).1.status = 200) ∧
    ((¬ ∃ p ∈ sampleDB.projects, p.id = "proj2" ∧ p.userId = "user1") →
      (projectDELETE (some "user1") "proj2" sampleDB).1 =
        ⟨404, ApiBody.err "Project not found"⟩ ∧
      (projectDELETE (some "user1") "proj2" sampleDB).2 = sampleDB) :=
  projectDelete_owner_scoped "user1" "proj2" sampleDB

/-- The closed set of lifecycle states of the job status protocol. -/
def validStatus (st : String) : Prop :=
  st = "queued" ∨ st = "processing" ∨ st = "completed" ∨ st = "failed"

/-- Modelled from the spec: the initial job record written when an
asset is uploaded; the upload route and the worker service are not in
the provided source.  Column defaults are those of schema.ts (attempts
0, lastHeartBeat, createdAt and updatedAt set to now); the initial
status is `queued` per the state machine of the specification;
errorMessage is absent. -/
def mkNewJob (jid aid pid : String) (now : Nat) : AssetProcessingJob :=
  ⟨jid, aid, pid, "queued", none, 0, now, now, now⟩

/-- Insert of a new job row checked against the constraints of
schema.ts: the referenced asset must exist (foreign key on `assetId`),
no stored job may already carry the same `assetId` (unique constraint),
and the generated uuid must be fresh.  The row's `projectId` is the
asset's project.  Returns none when a constraint fails, leaving the
store unchanged. -/
def createJobOp (s : DBState) (jid aid : String) (now : Nat) :
    Option DBState :=
  match s.assets.find? (fun a => a.id == aid) with
  | none => none
  | some a =>
    if s.jobs.any (fun j => j.assetId == aid) then none
    else if s.usedJobIds.any (fun x => x == jid) then none
    else some { s with
      jobs := s.jobs ++ [mkNewJob jid aid a.projectId now]
      usedJobIds := s.usedJobIds ++ [jid] }

/-- Modelled from the spec: the worker claims a queued job, moving it
to processing, incrementing attempts and refreshing the heartbeat; the
worker service is not in the provided source.  `updatedAt` follows
every write per schema.ts. -/
def claimUpdate (now : Nat) (j : AssetProcessingJob) : AssetProcessingJob :=
  { j with status := "processing", attempts := j.attempts + 1,
           lastHeartBeat := now, updatedAt := now }

/-- Modelled from the spec: periodic heartbeat refresh of a processing
job; no field other than the heartbeat (and the auto-updated
`updatedAt`) changes. -/
def heartbeatUpdate (now : Nat) (j : AssetProcessingJob) : AssetProcessingJob :=
  { j with lastHeartBeat := now, updatedAt := now }

/-- Modelled from the spec: successful completion of a processing job;
the error message is cleared. -/
def completeUpdate (now : Nat) (j : AssetProcessingJob) : AssetProcessingJob :=
  { j with status := "completed", errorMessage := none, updatedAt := now }

/-- Modelled from the spec: unrecoverable failure of a processing job;
the error message is populated with the failure detail. -/
def failUpdate (now : Nat) (msg : String) (j : AssetProcessingJob) :
    AssetProcessingJob :=
  { j with status := "failed", errorMessage := some msg, updatedAt := now }

/-- Modelled from the spec: retry scheduling of a failed job back to
queued. -/
def retryUpdate (now : Nat) (j : AssetProcessingJob) : AssetProcessingJob :=
  { j with status := "queued", updatedAt := now }

/-- Applies `f` to the row with primary key `jid` and keeps every other
row. -/
def updateJob (jobs : List AssetProcessingJob) (jid : String)
    (f : AssetProcessingJob → AssetProcessingJob) :
    List AssetProcessingJob :=
  jobs.map (fun j => if j.id = jid then f j else j)

/-- One operation of the system on the database.  Creation and deletion
preconditions come from the constraints of schema.ts; the
worker-driven job transitions (claim, heartbeat, complete, fail,
retry) are modelled from the state-machine contract of the
specification, since the worker service is not in the provided source.
`maxAttempts` is the configured retry maximum of that contract. -/
inductive Step (maxAttempts : Int) : DBState → DBState → Prop where
  | createProject (s : DBState) (p : Project)
      (hpk : ∀ q ∈ s.projects, q.id ≠ p.id) :
      Step maxAttempts s { s with projects := s.projects ++ [p] }
  | createAsset (s : DBState) (a : Asset)
      (hfk : ∃ p ∈ s.projects, p.id = a.projectId)
      (hpk : ∀ b ∈ s.assets, b.id ≠ a.id) :
      Step maxAttempts s { s with assets := s.assets ++ [a] }
  | createJob (s s2 : DBState) (jid aid : String) (now : Nat)
      (h : createJobOp s jid aid now = some s2) :
      Step maxAttempts s s2
  | deleteProjectsWhere (s : DBState) (pred : Project → Bool) :
      Step maxAttempts s (cascadeDeleteProjects s pred)
  | deleteAssetsWhere (s : DBState) (pred : Asset → Bool) :
      Step maxAttempts s (cascadeDeleteAssets s pred)
  | claimJob (s : DBState) (j : AssetProcessingJob) (now : Nat)
      (hj : j ∈ s.jobs) (hst : j.status = "queued") :
      Step maxAttempts s { s with jobs := updateJob s.jobs j.id (claimUpdate now) }
  | heartbeat (s : DBState) (j : AssetProcessingJob) (now : Nat)
      (hj : j ∈ s.jobs) (hst : j.status = "processing") :
      Step maxAttempts s { s with jobs := updateJob s.jobs j.id (heartbeatUpdate now) }
  | completeJob (s : DBState) (j : AssetProcessingJob) (now : Nat)
      (hj : j ∈ s.jobs) (hst : j.status = "processing") :
      Step maxAttempts s { s with jobs := updateJob s.jobs j.id (completeUpdate now) }
  | failJob (s : DBState) (j : AssetProcessingJob) (msg : String) (now : Nat)
      (hj : j ∈ s.jobs) (hst : j.status = "processing") :
      Step maxAttempts s { s with jobs := updateJob s.jobs j.id (failUpdate now msg) }
  | retryJob (s : DBState) (j : AssetProcessingJob) (now : Nat)
      (hj : j ∈ s.jobs) (hst : j.status = "failed")
      (hlt : j.attempts < maxAttempts) :
      Step maxAttempts s { s with jobs := updateJob s.jobs j.id (retryUpdate now) }

/-- Finite sequences of operations. -/
inductive StepStar (maxAttempts : Int) : DBState → DBState → Prop where
  | refl (s : DBState) : StepStar maxAttempts s s
  | tail (s s2 s3 : DBState) (h : StepStar maxAttempts s s2)
      (hs : Step maxAttempts s2 s3) : StepStar maxAttempts s s3

/-- A database state is reachable when some sequence of operations
produces it from the empty database. -/
def Reachable (maxAttempts : Int) (s : DBState) : Prop :=
  StepStar maxAttempts emptyDB s

theorem stepStar_trans (m : Int) (s1 s2 s3 : DBState)
    (h1 : StepStar m s1 s2) (h2 : StepStar m s2 s3) :
    StepStar m s1 s3 := by
  induction h2 with
  | refl => exact h1
  | tail _ _ _ hs ih => exact StepStar.tail _ _ _ ih hs

/-- Structural invariant of the job table: every row's id was
generated at some point; primary keys are pairwise distinct; asset ids
are pairwise distinct (the unique constraint); every status is a
lifecycle state; attempts are non-negative. -/
def JobsInv (s : DBState) : Prop :=
  (∀ j ∈ s.jobs, j.id ∈ s.usedJobIds) ∧
  (s.jobs.map (fun j => j.id)).Nodup ∧
  (s.jobs.map (fun j => j.assetId)).Nodup ∧
  (∀ j ∈ s.jobs, validStatus j.status) ∧
  (∀ j ∈ s.jobs, 0 ≤ j.attempts)

theorem updateJob_map_field {β : Type} (g : AssetProcessingJob → β)
    (jid : String) (f : AssetProcessingJob → AssetProcessingJob)
    (hf : ∀ j, g (f j) = g j) :
    ∀ jobs : List AssetProcessingJob,
      (updateJob jobs jid f).map g = jobs.map g := by
  intro jobs
  induction jobs with
  | nil => rfl
  | cons a t ih =>
    simp only [updateJob, List.map_cons] at ih ⊢
    by_cases hca : a.id = jid
    · simp only [hca, if_true, hf, ih]
    · simp only [hca, if_false, ih]

theorem mem_updateJob {jobs : List AssetProcessingJob} {jid : String}
    {f : AssetProcessingJob → AssetProcessingJob} {j2 : AssetProcessingJob}
    (h : j2 ∈ updateJob jobs jid f) :
    ∃ j ∈ jobs, j2 = if j.id = jid then f j else j := by
  simp only [updateJob, List.mem_map] at h
  obtain ⟨j, hj, hj2⟩ := h
  exact ⟨j, hj, hj2.symm⟩

theorem nodup_id_inj {jobs : List AssetProcessingJob}
    (hnd : (jobs.map (fun j => j.id)).Nodup)
    {j jc : AssetProcessingJob} (hj : j ∈ jobs) (hjc : jc ∈ jobs)
    (heq : j.id = jc.id) : j = jc :=
  List.inj_on_of_nodup_map hnd hj hjc heq

/-- `updateJob` with a field-preserving, status-respecting,
attempts-respecting function keeps the job-table invariant. -/
theorem jobsInv_updateJob (s s2 : DBState) (jid : String)
    (f : AssetProcessingJob → AssetProcessingJob)
    (hjobs : s2.jobs = updateJob s.jobs jid f)
    (hused : s2.usedJobIds = s.usedJobIds)
    (hid : ∀ j, (f j).id = j.id)
    (haid : ∀ j, (f j).assetId = j.assetId)
    (hst : ∀ j, validStatus j.status → validStatus (f j).status)
    (hat : ∀ j, 0 ≤ j.attempts → 0 ≤ (f j).attempts)
    (hinv : JobsInv s) :
    JobsInv s2 := by
  obtain ⟨h1, h2, h3, h4, h5⟩ := hinv
  refine ⟨?_, ?_, ?_, ?_, ?_⟩
  · intro j2 hj2
    rw [hjobs] at hj2
    rw [hused]
    obtain ⟨j, hj, hj2eq⟩ := mem_updateJob hj2
    by_cases hca : j.id = jid
    · rw [hj2eq, if_pos hca, hid]
      exact h1 j hj
    · rw [hj2eq, if_neg hca]
      exact h1 j hj
  · rw [hjobs, updateJob_map_field (fun j => j.id) jid f hid]
    exact h2
  · rw [hjobs, updateJob_map_field (fun j => j.assetId) jid f haid]
    exact h3
  · intro j2 hj2
    rw [hjobs] at hj2
    obtain ⟨j, hj, hj2eq⟩ := mem_updateJob hj2
    by_cases hca : j.id = jid
    · rw [hj2eq, if_pos hca]
      exact hst j (h4 j hj)
    · rw [hj2eq, if_neg hca]
      exact h4 j hj
  · intro j2 hj2
    rw [hjobs] at hj2
    obtain ⟨j, hj, hj2eq⟩ := mem_updateJob hj2
    by_cases hca : j.id = jid
    · rw [hj2eq, if_pos hca]
      exact hat j (h5 j hj)
    · rw [hj2eq, if_neg hca]
      exact h5 j hj

/-- Filtering the job table keeps the job-table invariant. -/
theorem jobsInv_filter (s s2 : DBState) (p : AssetProcessingJob → Bool)
    (hjobs : s2.jobs = s.jobs.filter p)
    (hused : s2.usedJobIds = s.usedJobIds)
    (hinv : JobsInv s) : JobsInv s2 := by
  obtain ⟨h1, h2, h3, h4, h5⟩ := hinv
  rw [JobsInv, hjobs, hused]
  refine ⟨?_, ?_, ?_, ?_, ?_⟩
  · intro j hj
    exact h1 j (List.mem_of_mem_filter hj)
  · exact h2.sublist ((List.filter_sublist s.jobs).map (fun j => j.id))
  · exact h3.sublist ((List.filter_sublist s.jobs).map (fun j => j.assetId))
  · intro j hj
    exact h4 j (List.mem_of_mem_filter hj)
  · intro j hj
    exact h5 j (List.mem_of_mem_filter hj)
/-- Inversion of a successful job insert: the asset was found, the
unique constraint and uuid freshness held, and the result appends the
new row and records the id. -/
theorem createJobOp_some (s s2 : DBState) (jid aid : String) (now : Nat)
    (h : createJobOp s jid aid now = some s2) :
    ∃ a, s.assets.find? (fun b => b.id == aid) = some a ∧
      (∀ j ∈ s.jobs, j.assetId ≠ aid) ∧
      jid ∉ s.usedJobIds ∧
      s2 = { s with jobs := s.jobs ++ [mkNewJob jid aid a.projectId now],
                    usedJobIds := s.usedJobIds ++ [jid] } := by
  unfold createJobOp at h
  cases hfind : s.assets.find? (fun b => b.id == aid) with
  | none =>
    rw [hfind] at h
    exact absurd h (by simp)
  | some a =>
    rw [hfind] at h
    dsimp only at h
    by_cases hany : (s.jobs.any (fun j => j.assetId == aid)) = true
    · rw [if_pos hany] at h
      exact absurd h (by simp)
    · rw [if_neg hany] at h
      by_cases hc : (s.usedJobIds.any (fun x => x == jid)) = true
      · rw [if_pos hc] at h
        exact absurd h (by simp)
      · rw [if_neg hc] at h
        refine ⟨a, rfl, ?_, ?_, (Option.some.inj h).symm⟩
        · simp only [List.any_eq_true, beq_iff_eq, not_exists, not_and] at hany
          exact hany
        · simp only [List.any_eq_true, beq_iff_eq, not_exists, not_and] at hc
          intro hmem
          exact hc jid hmem rfl

/-- Every operation preserves the job-table invariant. -/
theorem step_preserves_jobsInv (m : Int) (s s2 : DBState)
    (h : Step m s s2) (hinv : JobsInv s) : JobsInv s2 := by
  cases h with
  | createProject p hpk => exact hinv
  | createAsset a hfk hpk => exact hinv
  | createJob s2x jid aid now hop =>
    obtain ⟨a, hfind, hno, hfresh, heq⟩ := createJobOp_some s s2 jid aid now hop
    obtain ⟨h1, h2, h3, h4, h5⟩ := hinv
    subst heq
    rw [JobsInv]
    dsimp only
    refine ⟨?_, ?_, ?_, ?_, ?_⟩
    · intro j hj
      rcases List.mem_append.mp hj with hl | hr
      · exact List.mem_append_left _ (h1 j hl)
      · rw [List.mem_singleton.mp hr]
        exact List.mem_append_right _ (List.mem_singleton.mpr rfl)
    · rw [List.map_append]
      refine h2.append (List.nodup_singleton _) ?_
      intro x hx hx2
      simp only [List.map_cons, List.map_nil, List.mem_singleton] at hx2
      obtain ⟨j, hj, hjid⟩ := List.mem_map.mp hx
      apply hfresh
      have hxu : x ∈ s.usedJobIds := hjid ▸ h1 j hj
      have hx3 : x = jid := hx2
      exact hx3 ▸ hxu
    · rw [List.map_append]
      refine h3.append (List.nodup_singleton _) ?_
      intro x hx hx2
      simp only [List.map_cons, List.map_nil, List.mem_singleton] at hx2
      obtain ⟨j, hj, hjaid⟩ := List.mem_map.mp hx
      have hx3 : x = aid := hx2
      exact hno j hj (hjaid.trans hx3)
    · intro j hj
      rcases List.mem_append.mp hj with hl | hr
      · exact h4 j hl
      · rw [List.mem_singleton.mp hr]
        exact Or.inl rfl
    · intro j hj
      rcases List.mem_append.mp hj with hl | hr
      · exact h5 j hl
      · rw [List.mem_singleton.mp hr]
        exact le_refl 0
  | deleteProjectsWhere pred =>
    exact jobsInv_filter s _ _ rfl rfl hinv
  | deleteAssetsWhere pred =>
    exact jobsInv_filter s _ _ rfl rfl hinv
  | claimJob j now hj hst =>
    refine jobsInv_updateJob s _ j.id (claimUpdate now) rfl rfl
      (fun j2 => rfl) (fun j2 => rfl) ?_ ?_ hinv
    · intro j2 hv
      exact Or.inr (Or.inl rfl)
    · intro j2 hv
      simp only [claimUpdate]
      omega
  | heartbeat j now hj hst =>
    refine jobsInv_updateJob s _ j.id (heartbeatUpdate now) rfl rfl
      (fun j2 => rfl) (fun j2 => rfl) ?_ ?_ hinv
    · intro j2 hv
      exact hv
    · intro j2 hv
      exact hv
  | completeJob j now hj hst =>
    refine jobsInv_updateJob s _ j.id (completeUpdate now) rfl rfl
      (fun j2 => rfl) (fun j2 => rfl) ?_ ?_ hinv
    · intro j2 hv
      exact Or.inr (Or.inr (Or.inl rfl))
    · intro j2 hv
      exact hv
  | failJob j msg now hj hst =>
    refine jobsInv_updateJob s _ j.id (failUpdate now msg) rfl rfl
      (fun j2 => rfl) (fun j2 => rfl) ?_ ?_ hinv
    · intro j2 hv
      exact Or.inr (Or.inr (Or.inr rfl))
    · intro j2 hv
      exact hv
  | retryJob j now hj hst hlt =>
    refine jobsInv_updateJob s _ j.id (retryUpdate now) rfl rfl
      (fun j2 => rfl) (fun j2 => rfl) ?_ ?_ hinv
    · intro j2 hv
      exact Or.inl rfl
    · intro j2 hv
      exact hv

theorem stepStar_preserves_jobsInv (m : Int) (s s2 : DBState)
    (h : StepStar m s s2) (hinv : JobsInv s) : JobsInv s2 := by
  induction h with
  | refl => exact hinv
  | tail _ _ _ hs ih => exact step_preserves_jobsInv m _ _ hs ih

/-- Every reachable state satisfies the job-table invariant. -/
theorem reachable_jobsInv (m : Int) (s : DBState) (hr : Reachable m s) :
    JobsInv s := by
  refine stepStar_preserves_jobsInv m emptyDB s hr ?_
  refine ⟨?_, ?_, ?_, ?_, ?_⟩ <;> simp [emptyDB]

/-- Generated job ids are never discarded by any operation. -/
theorem step_used_mono (m : Int) (s s2 : DBState) (h : Step m s s2) :
    ∀ x ∈ s.usedJobIds, x ∈ s2.usedJobIds := by
  cases h with
  | createProject p hpk => exact fun x hx => hx
  | createAsset a hfk hpk => exact fun x hx => hx
  | createJob s2x jid aid now hop =>
    obtain ⟨a, hfind, hno, hfresh, heq⟩ := createJobOp_some s s2 jid aid now hop
    subst heq
    exact fun x hx => List.mem_append_left _ hx
  | deleteProjectsWhere pred => exact fun x hx => hx
  | deleteAssetsWhere pred => exact fun x hx => hx
  | claimJob j now hj hst => exact fun x hx => hx
  | heartbeat j now hj hst => exact fun x hx => hx
  | completeJob j now hj hst => exact fun x hx => hx
  | failJob j msg now hj hst => exact fun x hx => hx
  | retryJob j now hj hst hlt => exact fun x hx => hx

theorem stepStar_used_mono (m : Int) (s s2 : DBState)
    (h : StepStar m s s2) :
    ∀ x ∈ s.usedJobIds, x ∈ s2.usedJobIds := by
  induction h with
  | refl => exact fun x hx => hx
  | tail _ _ _ hs ih => exact fun x hx => step_used_mono m _ _ hs x (ih x hx)

/-- Rows after an `updateJob` trace back to rows before it with the
same id and no smaller attempts, provided the update does not lower
attempts. -/
theorem updateJob_attempts_back (jobs : List AssetProcessingJob)
    (jid : String) (f : AssetProcessingJob → AssetProcessingJob)
    (hid : ∀ j, (f j).id = j.id)
    (hat : ∀ j, j.attempts ≤ (f j).attempts)
    (j2 : AssetProcessingJob) (hj2 : j2 ∈ updateJob jobs jid f) :
    ∃ j ∈ jobs, j.id = j2.id ∧ j.attempts ≤ j2.attempts := by
  obtain ⟨j0, hj0, hj2eq⟩ := mem_updateJob hj2
  subst hj2eq
  by_cases hca : j0.id = jid
  · rw [if_pos hca]
    exact ⟨j0, hj0, (hid j0).symm, hat j0⟩
  · rw [if_neg hca]
    exact ⟨j0, hj0, rfl, le_refl _⟩

/-- Any row with a previously generated id traces back through one
operation to a row with the same id and no larger attempts. -/
theorem step_attempts_back (m : Int) (s s2 : DBState) (h : Step m s s2)
    (j2 : AssetProcessingJob) (hj2 : j2 ∈ s2.jobs)
    (hused : j2.id ∈ s.usedJobIds) :
    ∃ j ∈ s.jobs, j.id = j2.id ∧ j.attempts ≤ j2.attempts := by
  cases h with
  | createProject p hpk => exact ⟨j2, hj2, rfl, le_refl _⟩
  | createAsset a hfk hpk => exact ⟨j2, hj2, rfl, le_refl _⟩
  | createJob s2x jid aid now hop =>
    obtain ⟨a, hfind, hno, hfresh, heq⟩ := createJobOp_some s s2 jid aid now hop
    subst heq
    rcases List.mem_append.mp hj2 with hl | hr
    · exact ⟨j2, hl, rfl, le_refl _⟩
    · exfalso
      have hjid : j2.id = jid := by
        rw [List.mem_singleton.mp hr]
        rfl
      rw [hjid] at hused
      exact hfresh hused
  | deleteProjectsWhere pred =>
    exact ⟨j2, List.mem_of_mem_filter hj2, rfl, le_refl _⟩
  | deleteAssetsWhere pred =>
    exact ⟨j2, List.mem_of_mem_filter hj2, rfl, le_refl _⟩
  | claimJob j now hj hst =>
    refine updateJob_attempts_back s.jobs j.id (claimUpdate now)
      (fun j0 => rfl) ?_ j2 hj2
    intro j0
    simp only [claimUpdate]
    omega
  | heartbeat j now hj hst =>
    exact updateJob_attempts_back s.jobs j.id (heartbeatUpdate now)
      (fun j0 => rfl) (fun j0 => le_refl _) j2 hj2
  | completeJob j now hj hst =>
    exact updateJob_attempts_back s.jobs j.id (completeUpdate now)
      (fun j0 => rfl) (fun j0 => le_refl _) j2 hj2
  | failJob j msg now hj hst =>
    exact updateJob_attempts_back s.jobs j.id (failUpdate now msg)
      (fun j0 => rfl) (fun j0 => le_refl _) j2 hj2
  | retryJob j now hj hst hlt =>
    exact updateJob_attempts_back s.jobs j.id (retryUpdate now)
      (fun j0 => rfl) (fun j0 => le_refl _) j2 hj2

/-- Attempts of a job never decrease along any sequence of
operations. -/
theorem stepStar_attempts_mono (m : Int) (s s2 : DBState)
    (hss : StepStar m s s2) :
    JobsInv s → ∀ j ∈ s.jobs, ∀ j2 ∈ s2.jobs, j2.id = j.id →
      j.attempts ≤ j2.attempts := by
  induction hss with
  | refl =>
    intro hinv j hj j2 hj2 hid
    rw [nodup_id_inj hinv.2.1 hj2 hj hid]
  | tail s4 s5 hstar hs ih =>
    intro hinv j hj j2 hj2 hid
    have hused4 : j2.id ∈ s4.usedJobIds := by
      rw [hid]
      exact stepStar_used_mono m _ _ hstar j.id (hinv.1 j hj)
    obtain ⟨j4, hj4, hj4id, hj4le⟩ := step_attempts_back m s4 s5 hs j2 hj2 hused4
    exact le_trans (ih hinv j hj j4 hj4 (hj4id.trans hid)) hj4le

/-- The transitions of the job status protocol of the specification,
as a relation between a row before and after one operation, together
with their side effects on attempts and errorMessage and the retry
guard. -/
def specTransition (m : Int) (j j2 : AssetProcessingJob) : Prop :=
  (j.status = "queued" ∧ j2.status = "processing" ∧
    j2.attempts = j.attempts + 1) ∨
  (j.status = "processing" ∧ j2.status = "processing") ∨
  (j.status = "processing" ∧ j2.status = "completed" ∧
    j2.errorMessage = none) ∨
  (j.status = "processing" ∧ j2.status = "failed" ∧
    j2.errorMessage.isSome = true) ∨
  (j.status = "failed" ∧ j2.status = "queued" ∧ j.attempts < m)

/-- A status change of a row across one operation is one of the
transitions of the state machine. -/
theorem step_status_change (m : Int) (s s2 : DBState) (hinv : JobsInv s)
    (hstep : Step m s s2) (j : AssetProcessingJob) (hj : j ∈ s.jobs)
    (j2 : AssetProcessingJob) (hj2 : j2 ∈ s2.jobs) (hid : j2.id = j.id)
    (hne : j2.status ≠ j.status) : specTransition m j j2 := by
  cases hstep with
  | createProject p hpk =>
    exact absurd (congrArg AssetProcessingJob.status
      (nodup_id_inj hinv.2.1 hj2 hj hid)) hne
  | createAsset a hfk hpk =>
    exact absurd (congrArg AssetProcessingJob.status
      (nodup_id_inj hinv.2.1 hj2 hj hid)) hne
  | createJob s2x jid aid now hop =>
    obtain ⟨a, hfind, hno, hfresh, heq⟩ := createJobOp_some s s2 jid aid now hop
    subst heq
    rcases List.mem_append.mp hj2 with hl | hr
    · exact absurd (congrArg AssetProcessingJob.status
        (nodup_id_inj hinv.2.1 hl hj hid)) hne
    · exfalso
      have hjid : j2.id = jid := by
        rw [List.mem_singleton.mp hr]
        rfl
      have hu : j.id ∈ s.usedJobIds := hinv.1 j hj
      rw [← hid, hjid] at hu
      exact hfresh hu
  | deleteProjectsWhere pred =>
    exact absurd (congrArg AssetProcessingJob.status
      (nodup_id_inj hinv.2.1 (List.mem_of_mem_filter hj2) hj hid)) hne
  | deleteAssetsWhere pred =>
    exact absurd (congrArg AssetProcessingJob.status
      (nodup_id_inj hinv.2.1 (List.mem_of_mem_filter hj2) hj hid)) hne
  | claimJob jc now hjc hst =>
    obtain ⟨j0, hj0, hj2eq⟩ := mem_updateJob hj2
    subst hj2eq
    by_cases hca : j0.id = jc.id
    · rw [if_pos hca] at hid ⊢
      have hjj : j0 = j := nodup_id_inj hinv.2.1 hj0 hj hid
      have h0c : j0 = jc := nodup_id_inj hinv.2.1 hj0 hjc hca
      refine Or.inl ⟨?_, rfl, ?_⟩
      · rw [← hjj, h0c]
        exact hst
      · show j0.attempts + 1 = j.attempts + 1
        rw [hjj]
    · rw [if_neg hca] at hid hne
      exact absurd (congrArg AssetProcessingJob.status
        (nodup_id_inj hinv.2.1 hj0 hj hid)) hne
  | heartbeat jc now hjc hst =>
    obtain ⟨j0, hj0, hj2eq⟩ := mem_updateJob hj2
    subst hj2eq
    by_cases hca : j0.id = jc.id
    · rw [if_pos hca] at hid hne
      have hjj : j0 = j := nodup_id_inj hinv.2.1 hj0 hj hid
      exact absurd (congrArg AssetProcessingJob.status hjj) hne
    · rw [if_neg hca] at hid hne
      exact absurd (congrArg AssetProcessingJob.status
        (nodup_id_inj hinv.2.1 hj0 hj hid)) hne
  | completeJob jc now hjc hst =>
    obtain ⟨j0, hj0, hj2eq⟩ := mem_updateJob hj2
    subst hj2eq
    by_cases hca : j0.id = jc.id
    · rw [if_pos hca] at hid ⊢
      have hjj : j0 = j := nodup_id_inj hinv.2.1 hj0 hj hid
      have h0c : j0 = jc := nodup_id_inj hinv.2.1 hj0 hjc hca
      refine Or.inr (Or.inr (Or.inl ⟨?_, rfl, rfl⟩))
      rw [← hjj, h0c]
      exact hst
    · rw [if_neg hca] at hid hne
      exact absurd (congrArg AssetProcessingJob.status
        (nodup_id_inj hinv.2.1 hj0 hj hid)) hne
  | failJob jc msg now hjc hst =>
    obtain ⟨j0, hj0, hj2eq⟩ := mem_updateJob hj2
    subst hj2eq
    by_cases hca : j0.id = jc.id
    · rw [if_pos hca] at hid ⊢
      have hjj : j0 = j := nodup_id_inj hinv.2.1 hj0 hj hid
      have h0c : j0 = jc := nodup_id_inj hinv.2.1 hj0 hjc hca
      refine Or.inr (Or.inr (Or.inr (Or.inl ⟨?_, rfl, rfl⟩)))
      rw [← hjj, h0c]
      exact hst
    · rw [if_neg hca] at hid hne
      exact absurd (congrArg AssetProcessingJob.status
        (nodup_id_inj hinv.2.1 hj0 hj hid)) hne
  | retryJob jc now hjc hst hlt =>
    obtain ⟨j0, hj0, hj2eq⟩ := mem_updateJob hj2
    subst hj2eq
    by_cases hca : j0.id = jc.id
    · rw [if_pos hca] at hid ⊢
      have hjj : j0 = j := nodup_id_inj hinv.2.1 hj0 hj hid
      have h0c : j0 = jc := nodup_id_inj hinv.2.1 hj0 hjc hca
      refine Or.inr (Or.inr (Or.inr (Or.inr ⟨?_, rfl, ?_⟩)))
      · rw [← hjj, h0c]
        exact hst
      · rw [← hjj, h0c]
        exact hlt
    · rw [if_neg hca] at hid hne
      exact absurd (congrArg AssetProcessingJob.status
        (nodup_id_inj hinv.2.1 hj0 hj hid)) hne

/-- Rows after an `updateJob` keyed by a job of the table trace back to
rows before it with the same id, and permanent failure is preserved
when the update preserves it on that job. -/
theorem updateJob_failed_back (m : Int) (jobs : List AssetProcessingJob)
    (hnd : (jobs.map (fun j => j.id)).Nodup)
    (jc : AssetProcessingJob) (hjc : jc ∈ jobs)
    (f : AssetProcessingJob → AssetProcessingJob)
    (hid : ∀ j, (f j).id = j.id)
    (hkeep : jc.status = "failed" → m ≤ jc.attempts →
      ((f jc).status = "failed" ∧ m ≤ (f jc).attempts))
    (j2 : AssetProcessingJob) (hj2 : j2 ∈ updateJob jobs jc.id f) :
    ∃ j ∈ jobs, j.id = j2.id ∧
      (j.status = "failed" → m ≤ j.attempts →
        (j2.status = "failed" ∧ m ≤ j2.attempts)) := by
  obtain ⟨j0, hj0, hj2eq⟩ := mem_updateJob hj2
  subst hj2eq
  by_cases hca : j0.id = jc.id
  · rw [if_pos hca]
    have h0c : j0 = jc := nodup_id_inj hnd hj0 hjc hca
    refine ⟨j0, hj0, (hid j0).symm, ?_⟩
    intro h1 h2
    rw [h0c]
    exact hkeep (h0c ▸ h1) (h0c ▸ h2)
  · rw [if_neg hca]
    exact ⟨j0, hj0, rfl, fun h1 h2 => ⟨h1, h2⟩⟩

/-- Across one operation, a row with a previously generated id traces
back to a row with the same id, and permanent failure (status failed
with attempts at the maximum) carries forward. -/
theorem step_failed_back (m : Int) (s s2 : DBState) (h : Step m s s2)
    (hinv : JobsInv s) (j2 : AssetProcessingJob) (hj2 : j2 ∈ s2.jobs)
    (hused : j2.id ∈ s.usedJobIds) :
    ∃ j ∈ s.jobs, j.id = j2.id ∧
      (j.status = "failed" → m ≤ j.attempts →
        (j2.status = "failed" ∧ m ≤ j2.attempts)) := by
  cases h with
  | createProject p hpk => exact ⟨j2, hj2, rfl, fun h1 h2 => ⟨h1, h2⟩⟩
  | createAsset a hfk hpk => exact ⟨j2, hj2, rfl, fun h1 h2 => ⟨h1, h2⟩⟩
  | createJob s2x jid aid now hop =>
    obtain ⟨a, hfind, hno, hfresh, heq⟩ := createJobOp_some s s2 jid aid now hop
    subst heq
    rcases List.mem_append.mp hj2 with hl | hr
    · exact ⟨j2, hl, rfl, fun h1 h2 => ⟨h1, h2⟩⟩
    · exfalso
      have hjid : j2.id = jid := by
        rw [List.mem_singleton.mp hr]
        rfl
      rw [hjid] at hused
      exact hfresh hused
  | deleteProjectsWhere pred =>
    exact ⟨j2, List.mem_of_mem_filter hj2, rfl, fun h1 h2 => ⟨h1, h2⟩⟩
  | deleteAssetsWhere pred =>
    exact ⟨j2, List.mem_of_mem_filter hj2, rfl, fun h1 h2 => ⟨h1, h2⟩⟩
  | claimJob jc now hjc hst =>
    refine updateJob_failed_back m s.jobs hinv.2.1 jc hjc (claimUpdate now)
      (fun j0 => rfl) ?_ j2 hj2
    intro h1 h2
    rw [hst] at h1
    exact absurd h1 (by decide)
  | heartbeat jc now hjc hst =>
    refine updateJob_failed_back m s.jobs hinv.2.1 jc hjc (heartbeatUpdate now)
      (fun j0 => rfl) ?_ j2 hj2
    intro h1 h2
    rw [hst] at h1
    exact absurd h1 (by decide)
  | completeJob jc now hjc hst =>
    refine updateJob_failed_back m s.jobs hinv.2.1 jc hjc (completeUpdate now)
      (fun j0 => rfl) ?_ j2 hj2
    intro h1 h2
    rw [hst] at h1
    exact absurd h1 (by decide)
  | failJob jc msg now hjc hst =>
    refine updateJob_failed_back m s.jobs hinv.2.1 jc hjc (failUpdate now msg)
      (fun j0 => rfl) ?_ j2 hj2
    intro h1 h2
    rw [hst] at h1
    exact absurd h1 (by decide)
  | retryJob jc now hjc hst hlt =>
    refine updateJob_failed_back m s.jobs hinv.2.1 jc hjc (retryUpdate now)
      (fun j0 => rfl) ?_ j2 hj2
    intro h1 h2
    exact absurd h2 (not_le.mpr hlt)

/-- Permanent failure carries forward across any sequence of
operations. -/
theorem stepStar_failed_perm (m : Int) (s s2 : DBState)
    (hss : StepStar m s s2) :
    JobsInv s → ∀ j ∈ s.jobs, j.status = "failed" → m ≤ j.attempts →
      ∀ j2 ∈ s2.jobs, j2.id = j.id →
        (j2.status = "failed" ∧ m ≤ j2.attempts) := by
  induction hss with
  | refl =>
    intro hinv j hj hf hm j2 hj2 hid
    rw [nodup_id_inj hinv.2.1 hj2 hj hid]
    exact ⟨hf, hm⟩
  | tail s4 s5 hstar hs ih =>
    intro hinv j hj hf hm j2 hj2 hid
    have hinv4 := stepStar_preserves_jobsInv m _ _ hstar hinv
    have hused4 : j2.id ∈ s4.usedJobIds := by
      rw [hid]
      exact stepStar_used_mono m _ _ hstar j.id (hinv.1 j hj)
    obtain ⟨j4, hj4, hj4id, hkeep⟩ :=
      step_failed_back m s4 s5 hs hinv4 j2 hj2 hused4
    have h4res := ih hinv j hj hf hm j4 hj4 (hj4id.trans hid)
    exact hkeep h4res.1 h4res.2

/-- C5: in every reachable state the assetId values of the job rows
are pairwise distinct, and an insert of a second job for an assetId
that already has a job fails (returns none), leaving the store
unchanged. -/
theorem job_assetId_unique (m : Int) (s : DBState) (hr : Reachable m s) :
    (s.jobs.map (fun j => j.assetId)).Nodup ∧
    (∀ jid aid now, (∃ j ∈ s.jobs, j.assetId = aid) →
      createJobOp s jid aid now = none) := by
  have hinv := reachable_jobsInv m s hr
  refine ⟨hinv.2.2.1, ?_⟩
  rintro jid aid now ⟨j, hj, hja⟩
  unfold createJobOp
  cases hfind : s.assets.find? (fun b => b.id == aid) with
  | none => rfl
  | some a =>
    dsimp only
    have hany : (s.jobs.any (fun j2 => j2.assetId == aid)) = true :=
      List.any_eq_true.mpr ⟨j, hj, by simp [hja]⟩
    rw [if_pos hany]

/-- C7: in every reachable state every job row's status is one of
queued, processing, completed, failed; in particular every record
returned by the jobs GET route carries one of these statuses. -/
theorem job_status_closed (m : Int) (s : DBState) (hr : Reachable m s) :
    (∀ j ∈ s.jobs, validStatus j.status) ∧
    (∀ uid pid l,
      (assetProcessingJobsGET (some uid) pid s.jobs false).1.body =
        ApiBody.jobList l → ∀ j ∈ l, validStatus j.status) := by
  have hinv := reachable_jobsInv m s hr
  refine ⟨hinv.2.2.2.1, ?_⟩
  intro uid pid l hbody j hj
  have hl : ApiBody.jobList (selectJobsByProject s.jobs pid) =
      ApiBody.jobList l := hbody
  have hsel : selectJobsByProject s.jobs pid = l := by
    injection hl
  rw [← hsel] at hj
  exact hinv.2.2.2.1 j (List.mem_of_mem_filter hj)

/-- C8: attempts are non-negative and never decrease: whenever a job
row is read in a reachable state and read again, under the same id,
after any further sequence of operations, the later value is at least
the earlier one. -/
theorem attempts_monotone (m : Int) (s s2 : DBState) (hr : Reachable m s)
    (hss : StepStar m s s2) (j : AssetProcessingJob) (hj : j ∈ s.jobs)
    (j2 : AssetProcessingJob) (hj2 : j2 ∈ s2.jobs) (hid : j2.id = j.id) :
    0 ≤ j.attempts ∧ j.attempts ≤ j2.attempts :=
  ⟨(reachable_jobsInv m s hr).2.2.2.2 j hj,
   stepStar_attempts_mono m s s2 hss (reachable_jobsInv m s hr) j hj j2 hj2 hid⟩

/-- C9: from a reachable state, every status change across one
operation is a transition of the state machine (with its attempts,
errorMessage and retry-guard side conditions), and a failed job whose
attempts have reached the configured maximum stays failed, with
attempts still at the maximum, across any further sequence of
operations. -/
theorem job_lifecycle_statemachine (m : Int) (s : DBState)
    (hr : Reachable m s) :
    (∀ s2, Step m s s2 → ∀ j ∈ s.jobs, ∀ j2 ∈ s2.jobs,
      j2.id = j.id → j2.status ≠ j.status → specTransition m j j2) ∧
    (∀ s2, StepStar m s s2 → ∀ j ∈ s.jobs, j.status = "failed" →
      m ≤ j.attempts → ∀ j2 ∈ s2.jobs, j2.id = j.id →
        (j2.status = "failed" ∧ m ≤ j2.attempts)) := by
  have hinv := reachable_jobsInv m s hr
  constructor
  · intro s2 hstep j hj j2 hj2 hid hne
    exact step_status_change m s s2 hinv hstep j hj j2 hj2 hid hne
  · intro s2 hss j hj hf hm j2 hj2 hid
    exact stepStar_failed_perm m s s2 hss hinv j hj hf hm j2 hj2 hid

/-- Concrete project row used to build a small reachable state. -/
def wproj : Project := ⟨"proj1", "t1", 0, 0, "user1"⟩

/-- Concrete asset row of `wproj`. -/
def wasset : Asset := ⟨"a1", "proj1", "t", "f", "u", "ft", "mt", 1, "", 0, 0, 0⟩

/-- State after creating `wproj`. -/
def ws1 : DBState := ⟨[wproj], [], [], []⟩

/-- State after creating `wasset`. -/
def ws2 : DBState := ⟨[wproj], [wasset], [], []⟩

/-- State after inserting the job for `wasset`. -/
def ws3 : DBState :=
  ⟨[wproj], [wasset], [mkNewJob "j1" "a1" "proj1" 0], ["j1"]⟩

/-- State after the worker claims the job. -/
def ws4 : DBState :=
  ⟨[wproj], [wasset], [claimUpdate 1 (mkNewJob "j1" "a1" "proj1" 0)], ["j1"]⟩

theorem ws3_reachable : Reachable 3 ws3 := by
  have h1 : Step 3 emptyDB ws1 :=
    Step.createProject emptyDB wproj (by simp [emptyDB])
  have h2 : Step 3 ws1 ws2 :=
    Step.createAsset ws1 wasset (by decide) (by decide)
  have h3 : Step 3 ws2 ws3 :=
    Step.createJob ws2 ws3 "j1" "a1" 0 (by decide)
  exact StepStar.tail _ _ _
    (StepStar.tail _ _ _ (StepStar.tail _ _ _ (StepStar.refl _) h1) h2) h3

theorem ws3_to_ws4 : Step 3 ws3 ws4 :=
  Step.claimJob ws3 (mkNewJob "j1" "a1" "proj1" 0) 1 (by decide) rfl

theorem ws3_ws4_star : StepStar 3 ws3 ws4 :=
  StepStar.tail _ _ _ (StepStar.refl _) ws3_to_ws4

/-- C5 witness: the reachable state with one job has pairwise distinct
asset ids, and every second insert for an occupied assetId fails. -/
theorem job_assetId_unique_spot :
    (ws3.jobs.map (fun j => j.assetId)).Nodup ∧
    (∀ jid aid now, (∃ j ∈ ws3.jobs, j.assetId = aid) →
      createJobOp ws3 jid aid now = none) :=
  job_assetId_unique 3 ws3 ws3_reachable

/-- C7 witness: the status invariant evaluated at the concrete
reachable state. -/
theorem job_status_closed_spot :
    (∀ j ∈ ws3.jobs, validStatus j.status) ∧
    (∀ uid pid l,
      (assetProcessingJobsGET (some uid) pid ws3.jobs false).1.body =
        ApiBody.jobList l → ∀ j ∈ l, validStatus j.status) :=
  job_status_closed 3 ws3 ws3_reachable

/-- C8 witness: claiming the queued job raises attempts from 0 to 1,
never below the earlier read. -/
theorem attempts_monotone_spot :
    0 ≤ (mkNewJob "j1" "a1" "proj1" 0).attempts ∧
    (mkNewJob "j1" "a1" "proj1" 0).attempts ≤
      (claimUpdate 1 (mkNewJob "j1" "a1" "proj1" 0)).attempts :=
  attempts_monotone 3 ws3 ws4 ws3_reachable ws3_ws4_star
    (mkNewJob "j1" "a1" "proj1" 0) (by decide)
    (claimUpdate 1 (mkNewJob "j1" "a1" "proj1" 0)) (by decide) rfl

/-- C9 witness: the concrete claim step realises the
queued-to-processing transition of the state machine. -/
theorem job_lifecycle_statemachine_spot :
    specTransition 3 (mkNewJob "j1" "a1" "proj1" 0)
      (claimUpdate 1 (mkNewJob "j1" "a1" "proj1" 0)) :=
  (job_lifecycle_statemachine 3 ws3 ws3_reachable).1 ws4 ws3_to_ws4
    (mkNewJob "j1" "a1" "proj1" 0) (by decide)
    (claimUpdate 1 (mkNewJob "j1" "a1" "proj1" 0)) (by decide) rfl (by decide)
